import Mathlib

/-!
Shallow embedding of the trickLED library (src/trickLED/trickLED.py,
src/trickLED/animations.py, src/trickLED/generators.py) and proofs about it.

Python `float` values appearing in the arithmetic (true division `/` and the
mixed int/float expressions built from it) are IEEE-754 binary64 values.  They
are modelled exactly by dyadic rationals `m * 2 ^ e` together with
round-to-nearest, ties-to-even rounding to 53 significant bits (`roundM`).
All values arising in this code are far inside the normal range of binary64,
so overflow and subnormal behaviour never come into play and this model is
exact for every expression embedded below.
-/

deriving instance DecidableEq for Except

namespace TrickLED

/-- Number of binary digits of a natural number (`int.bit_length` in Python);
fuelled structural recursion, fuel 4096 far exceeds any width arising here. -/
def bitLenAux : ℕ → ℕ → ℕ
  | 0, _ => 0
  | fuel + 1, n => if n = 0 then 0 else bitLenAux fuel (n / 2) + 1

/-- Bit length of a natural number. -/
def bitLen (n : ℕ) : ℕ := bitLenAux 4096 n

/-- A dyadic rational `m * 2 ^ e`, the exact value of an IEEE binary64 float
(in the normal range). Not kept normalised; `roundM` produces mantissas of at
most 54 bits. -/
structure Dy where
  m : ℤ
  e : ℤ
deriving DecidableEq

/-- Round the exact value `m * 2 ^ e` to 53 significant bits,
round-to-nearest ties-to-even: the rounding IEEE binary64 applies to every
arithmetic result. Zero is canonicalised to `⟨0, 0⟩`. -/
def roundM (m : ℤ) (e : ℤ) : Dy :=
  if m = 0 then ⟨0, 0⟩
  else
    let n := m.natAbs
    let b := bitLen n
    if b ≤ 53 then ⟨m, e⟩
    else
      let s := b - 53
      let q := n / 2 ^ s
      let r := n % 2 ^ s
      let half := 2 ^ (s - 1)
      let q2 := if half < r then q + 1
        else if r < half then q
        else if q % 2 = 0 then q else q + 1
      ⟨if m < 0 then -(q2 : ℤ) else (q2 : ℤ), e + s⟩

/-- Conversion of a Python int to float (exact for the small ints used here). -/
def dyOfInt (n : ℤ) : Dy := roundM n 0

/-- IEEE binary64 multiplication: round the exact product. -/
def flMul (x y : Dy) : Dy := roundM (x.m * y.m) (x.e + y.e)

/-- IEEE binary64 addition: round the exact sum. -/
def flAdd (x y : Dy) : Dy :=
  roundM (x.m * 2 ^ (x.e - min x.e y.e).toNat + y.m * 2 ^ (y.e - min x.e y.e).toNat)
    (min x.e y.e)

/-- IEEE binary64 subtraction. -/
def flSub (x y : Dy) : Dy := flAdd x ⟨-y.m, y.e⟩

/-- IEEE binary64 division (`y ≠ 0` in every use below): compute the quotient
with enough guard bits that a single round-to-nearest-ties-to-even decision,
made from the truncated quotient, the shifted-out bits and the division
remainder, gives the correctly rounded result. -/
def flDiv (x y : Dy) : Dy :=
  if x.m = 0 then ⟨0, 0⟩
  else
    let a := x.m.natAbs
    let b := y.m.natAbs
    let t := 54 + bitLen b
    let q := a * 2 ^ t / b
    let r := a * 2 ^ t % b
    let s := bitLen q - 53
    let q1 := q / 2 ^ s
    let r1 := q % 2 ^ s
    let q2 := if 2 ^ s * b < 2 * (r1 * b + r) then q1 + 1
      else if 2 * (r1 * b + r) < 2 ^ s * b then q1
      else if q1 % 2 = 0 then q1 else q1 + 1
    ⟨if (0 ≤ x.m ∧ 0 ≤ y.m) ∨ (x.m < 0 ∧ y.m < 0) then (q2 : ℤ) else -(q2 : ℤ),
      x.e - y.e - (t : ℤ) + (s : ℤ)⟩

/-- Exact comparison `x ≤ y` of two dyadic float values. -/
def dyLe (x y : Dy) : Bool :=
  decide (x.m * 2 ^ (x.e - min x.e y.e).toNat ≤ y.m * 2 ^ (y.e - min x.e y.e).toNat)

/-- Exact comparison `x < y` of two dyadic float values. -/
def dyLt (x y : Dy) : Bool :=
  decide (x.m * 2 ^ (x.e - min x.e y.e).toNat < y.m * 2 ^ (y.e - min x.e y.e).toNat)

/-- Python `int(x)` on a float: truncation toward zero, written as the
sign times the flooring division of the magnitude. -/
def dyTrunc (x : Dy) : ℤ :=
  if 0 ≤ x.e then x.m * 2 ^ x.e.toNat
  else x.m.sign * (x.m.natAbs / 2 ^ (-x.e).toNat : ℕ)

/-- Source `uint8` (trickLED.py lines 44-50) applied to a float argument:
values in [0,255] are truncated with `int()`, negatives clamp to 0, larger
values clamp to 255. -/
def uint8f (x : Dy) : ℕ :=
  if dyLe ⟨0, 0⟩ x && dyLe x ⟨255, 0⟩ then (dyTrunc x).toNat
  else if dyLt x ⟨0, 0⟩ then 0 else 255

/-- Source `uint8` applied to an int argument (Python's `uint8` handles both;
the embedding splits it by argument type). -/
def uint8i (v : ℤ) : ℕ :=
  if 0 ≤ v ∧ v ≤ 255 then v.toNat
  else if v < 0 then 0 else 255

/-- An RGB color tuple as used throughout the source (bpp = 3). -/
abbrev Color := ℕ × ℕ × ℕ

/-- One channel of `blend` (trickLED.py line 33):
`uint8(col1[i] + (col2[i] - col1[i]) / 100 * pct)` with Python float
semantics (`/` is float division, the products and sum round to binary64). -/
def blendChan (a b : ℕ) (pct : ℤ) : ℕ :=
  uint8f (flAdd (dyOfInt a)
    (flMul (flDiv (dyOfInt ((b : ℤ) - (a : ℤ))) (dyOfInt 100)) (dyOfInt pct)))

/-- Source `blend` (trickLED.py lines 21-36): blends col1 toward col2 by pct
percent when `0 ≤ pct ≤ 100`, otherwise returns col1 unchanged. -/
def blend (col1 col2 : Color) (pct : ℤ) : Color :=
  if 0 ≤ pct ∧ pct ≤ 100 then
    (blendChan col1.1 col2.1 pct, blendChan col1.2.1 col2.2.1 pct,
      blendChan col1.2.2 col2.2.2 pct)
  else col1

/-- Body of `color_wheel` (trickLED.py lines 133-144) after the hue has been
normalised: `pa = hue % 85; ss = val / 85; ci = uint8(ss * pa);
cd = uint8(val) - ci` and the three 85-step arcs. `cd` is a plain Python int
subtraction, so the result channels are ints (ℤ). -/
def colorWheelBody (h : ℕ) (val : ℤ) : ℤ × ℤ × ℤ :=
  let pa : ℕ := h % 85
  let ci : ℕ := uint8f (flMul (flDiv (dyOfInt val) (dyOfInt 85)) (dyOfInt pa))
  let cd : ℤ := (uint8i val : ℤ) - (ci : ℤ)
  if h < 85 then (cd, (ci : ℤ), 0)
  else if h < 170 then (0, cd, (ci : ℤ))
  else ((ci : ℤ), 0, cd)

/-- Source `color_wheel` (trickLED.py lines 133-144). Note the source first
clamps the position with `uint8` and only then reduces `% 255`. -/
def color_wheel (hue : ℤ) (val : ℤ) : ℤ × ℤ × ℤ :=
  colorWheelBody (uint8i hue % 255) val

/-- Source `shift_bits` (trickLED.py lines 196-202). Every value it is applied
to in the embedded code is a non-negative int (a masked 32-bit word or a color
channel), so the value argument is ℕ; Python `>>` on non-negative ints is
flooring division by a power of two. -/
def shift_bits (val : ℕ) (shift : ℤ) : ℕ :=
  if 0 < shift then val * 2 ^ shift.toNat
  else if shift < 0 then val / 2 ^ (-shift).toNat
  else val

/-- Little-endian decoding of 4 bytes, `struct.unpack` of format I. -/
def unpackLE (bs : List ℕ) : ℕ :=
  bs.getD 0 0 + bs.getD 1 0 * 256 + bs.getD 2 0 * 65536 + bs.getD 3 0 * 16777216

/-- Little-endian encoding of a 32-bit word, `struct.pack` of format I. -/
def packLE (w : ℕ) : List ℕ :=
  [w % 256, w / 256 % 256, w / 65536 % 256, w / 16777216 % 256]

/-- Source `BitMap` (trickLED.py lines 205-308): `n` logical bits stored in
`wc = ceil(n/32)` 32-bit words, i.e. a bytearray of `wc * 4` bytes. -/
structure BitMap where
  n : ℕ
  wc : ℕ
  buf : List ℕ
deriving DecidableEq

/-- Source `BitMap.__init__`: `wc = ceil(n / 32)` and a zeroed buffer. -/
def BitMap.init (n : ℕ) : BitMap :=
  ⟨n, (n + 31) / 32, List.replicate (((n + 31) / 32) * 4) 0⟩

/-- Source `BitMap.scroll` (trickLED.py lines 243-266), translated exactly —
including the snapshot loop reading `self.buf[i:i+4]` (byte offsets `i`
through `i+4`, not word `i`'s bytes `4i` through `4i+4`).  The write loop
stores word `i` at bytes `4i..4i+4` and uses only the snapshot, so the final
buffer is the concatenation of the packed new words.  Mask arithmetic assumes
`|steps| ≤ 32` (for larger magnitudes the Python source computes float or
huge-int masks); every use proved about here has `|steps| ≤ 32`. -/
def BitMap.scroll (bm : BitMap) (steps : ℤ) : BitMap :=
  let pos := 0 < steps
  let src_mask : ℕ :=
    if pos then 2 ^ (32 - steps.toNat) - 1 else 4294967295 - (2 ^ (-steps).toNat - 1)
  let fill_mask : ℕ :=
    if pos then 4294967295 - (2 ^ (32 - steps.toNat) - 1) else 2 ^ (-steps).toNat - 1
  let src_shift : ℤ := steps
  let fill_shift : ℤ := if pos then steps - 32 else 32 + steps
  let fill_loc : ℤ := if bm.wc = 1 then 0 else if pos then -1 else 1
  let words := (List.range bm.wc).map fun i => unpackLE ((bm.buf.drop i).take 4)
  let newbuf := (List.range bm.wc).foldl (fun acc (i : ℕ) =>
    let fill_idx := (((i : ℤ) + fill_loc) % (bm.wc : ℤ)).toNat
    let src := shift_bits ((words.getD i 0).land src_mask) src_shift
    let fill := shift_bits ((words.getD fill_idx 0).land fill_mask) fill_shift
    acc ++ packLE (src + fill)) []
  ⟨bm.n, bm.wc, newbuf⟩

/-- Source `ByteMap` (trickLED.py lines 311-381): `n` records of `bpi` bytes
each in one contiguous byte buffer. -/
structure ByteMap where
  n : ℕ
  bpi : ℕ
  buf : List ℕ
deriving DecidableEq

/-- Source `colval` (trickLED.py lines 187-193) restricted to tuple values
(the only shape used in the claims below): a falsy value — the empty tuple —
becomes `bpi` zero bytes, any non-empty tuple is returned unchanged.  (The
int-to-bytes branch of `colval` is not needed for these records.) -/
def colval (val : List ℕ) (bpi : ℕ) : List ℕ :=
  if val = [] then List.replicate bpi 0 else val

/-- Source `ByteMap.__getitem__` (trickLED.py lines 336-355) for int keys:
in-range keys read record `key`, keys in `(-n, 0)` read record `key + n`, and
every other key raises IndexError.  The record is returned as its list of
`bpi` bytes (the Python source wraps it in a tuple when `bpi > 1` and unwraps
the single byte when `bpi = 1`). -/
def ByteMap.getItem (bm : ByteMap) (key : ℤ) : Except String (List ℕ) :=
  if 0 ≤ key ∧ key < (bm.n : ℤ) then
    Except.ok ((bm.buf.drop (key.toNat * bm.bpi)).take bm.bpi)
  else if -(bm.n : ℤ) < key ∧ key < 0 then
    Except.ok ((bm.buf.drop ((key + (bm.n : ℤ)).toNat * bm.bpi)).take bm.bpi)
  else Except.error "index out of range"

/-- Source `ByteMap.__setitem__` (trickLED.py lines 325-334): the value is
first converted with `bytes(colval(value, bpi))` — which raises ValueError if
a byte is out of [0,255] — then an in-range key overwrites its record's byte
slice, key `n` appends the record and increments `n`, and any other key
raises IndexError. -/
def ByteMap.setItem (bm : ByteMap) (key : ℤ) (value : List ℕ) : Except String ByteMap :=
  let v := colval value bm.bpi
  if ¬ (∀ b ∈ v, b < 256) then Except.error "byte must be in range of 0 to 255"
  else if 0 ≤ key ∧ key < (bm.n : ℤ) then
    Except.ok ⟨bm.n, bm.bpi,
      bm.buf.take (key.toNat * bm.bpi) ++ v ++ bm.buf.drop (key.toNat * bm.bpi + bm.bpi)⟩
  else if key = (bm.n : ℤ) then
    Except.ok ⟨bm.n + 1, bm.bpi, bm.buf ++ v⟩
  else Except.error "index out of range"

/-- Recursion of `TrickLED.blend_to_color` (trickLED.py lines 464-486): walk
the pixels carrying the `last_col`/`blend_col` state; a pixel equal to
`blend_col` is skipped, a pixel equal to `last_col` is overwritten with
`blend_col`, any other pixel is blended and both state variables updated.
Each loop iteration writes only pixel `i`, so the walk is a map with state. -/
def blendToColorAux (color : Color) (pct : ℤ) :
    List Color → Color → Color → List Color
  | [], _, _ => []
  | v :: rest, last_col, blend_col =>
    if v = blend_col then v :: blendToColorAux color pct rest last_col blend_col
    else if v = last_col then
      blend_col :: blendToColorAux color pct rest last_col blend_col
    else blend v color pct :: blendToColorAux color pct rest v (blend v color pct)

/-- Source `TrickLED.blend_to_color` over the default full range
(`start_pos = 0`, `end_pos = None`), with both state colors initialised to
`(0,) * bpp`. -/
def blend_to_color (buf : List Color) (color : Color) (pct : ℤ) : List Color :=
  blendToColorAux color pct buf (0, 0, 0) (0, 0, 0)

/-- The state `(last_col, blend_col)` held by `blend_to_color` after it has
walked a prefix of the pixels (same branch structure as `blendToColorAux`). -/
def btcState (color : Color) (pct : ℤ) :
    List Color → Color × Color → Color × Color
  | [], s => s
  | v :: rest, s =>
    if v = s.2 then btcState color pct rest s
    else if v = s.1 then btcState color pct rest s
    else btcState color pct rest (v, blend v color pct)

/-- Modelled from the spec for the refinement claim: the naive walk that the
claim compares `blend_to_color` against, setting every pixel `i` of the range
to `blend(original pixel i, color, pct)`. -/
def blendEach (buf : List Color) (color : Color) (pct : ℤ) : List Color :=
  buf.map fun v => blend v color pct

/-- The NeoPixel base class stores each pixel as `bpp` bytes of a bytearray;
assigning a channel value outside [0, 255] to a bytearray element raises
ValueError.  (NeoPixel is the external hardware-buffer collaborator; this
models the byte-per-channel pixel buffer of the spec's data model.) -/
def neoSetItem (buf : List Color) (i : ℕ) (v : Color) : Except String (List Color) :=
  if v.1 < 256 ∧ v.2.1 < 256 ∧ v.2.2 < 256 then Except.ok (buf.set i v)
  else Except.error "value must fit in a byte"

/-- Source `TrickLED.__setitem__` (trickLED.py lines 404-409): bounds check,
`colval` normalisation (identity on the 3-tuples used here), then the
NeoPixel bytearray store. -/
def trickSetItem (buf : List Color) (i : ℤ) (v : Color) : Except String (List Color) :=
  if 0 ≤ i ∧ i < (buf.length : ℤ) then neoSetItem buf i.toNat v
  else Except.error "assignment index out of range"

/-- Source `TrickLED.adjust` (trickLED.py lines 488-501) over the default
full range: reject shifts outside [-7, 7], then store
`tuple(shift_bits(x, shift) for x in self[i])` — note `shift_bits` does not
clamp — pixel by pixel, stopping at the first store that raises. -/
def adjust (buf : List Color) (shift : ℤ) : Except String (List Color) :=
  if shift < -7 ∨ 7 < shift then Except.error "shift must be between -7 and 7"
  else (List.range buf.length).foldlM (fun b i =>
    let v := b.getD i (0, 0, 0)
    trickSetItem b (i : ℤ)
      (shift_bits v.1 shift, shift_bits v.2.1 shift, shift_bits v.2.2 shift)) buf

/-- Source `TrickLED._repeat_mirror` (trickLED.py lines 520-534) with head
size `n`: for each `i` in `[n, strip length)` write pixel `self[rl]` to
position `i`, then update the cursor: decrement or increment while
`0 < rl < n`, set the direction to +1 when `rl == 0` and to -1 otherwise.
`write()` (lines 536-542) invokes this when `repeat_mode` is
`REPEAT_MODE_MIRROR` before handing the buffer to the hardware. -/
def repeatMirror (buf : List Color) (n : ℕ) : List Color :=
  ((List.range' n (buf.length - n)).foldl
    (fun (st : List Color × ℤ × ℤ) (i : ℕ) =>
      let b := st.1
      let rl := st.2.1
      let d := st.2.2
      let b2 := b.set i (b.getD rl.toNat (0, 0, 0))
      if 0 < rl ∧ rl < (n : ℤ) then (b2, rl + d, d)
      else if rl = 0 then (b2, rl, 1)
      else (b2, rl, -1))
    (buf, ((n : ℤ) - 1, (-1 : ℤ)))).1

/-- Modelled from the spec for comparison: the ping-pong tiling the claim
describes — pixel `i ≥ s` of segment `k = i / s` is `head[i % s]` for even
`k` and `head[s - 1 - i % s]` for odd `k`. -/
def mirrorTiling (buf : List Color) (s : ℕ) : List Color :=
  buf.mapIdx fun i v =>
    if i < s then v
    else if (i / s) % 2 = 0 then buf.getD (i % s) (0, 0, 0)
    else buf.getD (s - 1 - i % s) (0, 0, 0)

/-- Python `l[c:]` for an int `c` (possibly negative). -/
def pySliceFrom (l : List α) (c : ℤ) : List α :=
  if 0 ≤ c then l.drop c.toNat
  else l.drop (l.length - min (-c).toNat l.length)

/-- Python `l[:c]` for an int `c` (possibly negative). -/
def pySliceTo (l : List α) (c : ℤ) : List α :=
  if 0 ≤ c then l.take c.toNat
  else l.take (l.length - min (-c).toNat l.length)

/-- Source `ByteMap.scroll` (trickLED.py lines 360-362) on the raw buffer:
`cut = bpi * -step; buf = buf[cut:] + buf[:cut]`. -/
def byteMapScrollBuf (buf : List ℕ) (bpi : ℕ) (step : ℤ) : List ℕ :=
  pySliceFrom buf ((bpi : ℤ) * (-step)) ++ pySliceTo buf ((bpi : ℤ) * (-step))

/-- Heat value seeded at a flash point (animations.py lines 350-357):
`spark = getrandbits(8)`; a spark at or below the sparking setting gives a
high heat `224 + (spark & 31)`, otherwise a moderate heat
`(spark & 127) | 64`. -/
def sparkVal (sparking spark : ℕ) : ℕ :=
  if spark ≤ sparking then 224 + (spark &&& 31) else (spark &&& 127) ||| 64

/-- The flash-point seeding loop of `Fire.calc_frame`: write
`sparkVal` of each point's own random draw into the heat map, in order.
Every flash point is `< n` (established by `Fire.setup`), so the ByteMap
store is a plain record overwrite. -/
def seedFlashPoints (sparking : ℕ) : List ℕ → List (ℕ × ℕ) → List ℕ
  | hm, [] => hm
  | hm, (ip, spark) :: rest =>
    seedFlashPoints sparking (hm.set ip (sparkVal sparking spark)) rest

/-- One entry of the cool-and-blend pass of `Fire.calc_frame`
(animations.py lines 361-377): positions flagged in the blend map average
with their neighbours (float division by 3, or by 2 at the edges) minus the
cooling setting; flash points keep their heat unchanged; every other position
is cooled by plain int subtraction; all through `uint8`. -/
def fireCooledEntry (hm : List ℕ) (bmap : List Bool) (fps : List ℕ)
    (cooling : ℤ) (i : ℕ) : ℕ :=
  let mi := hm.length - 1
  if bmap.getD i false then
    uint8f (if 0 < i ∧ i < mi then
        flSub (flDiv (dyOfInt ((hm.getD (i - 1) 0 : ℤ) + (hm.getD i 0 : ℤ)
          + (hm.getD (i + 1) 0 : ℤ))) (dyOfInt 3)) (dyOfInt cooling)
      else if i = 0 then
        flSub (flDiv (dyOfInt ((hm.getD 0 0 : ℤ) + (hm.getD 1 0 : ℤ)))
          (dyOfInt 2)) (dyOfInt cooling)
      else
        flSub (flDiv (dyOfInt ((hm.getD (mi - 1) 0 : ℤ) + (hm.getD mi 0 : ℤ)))
          (dyOfInt 2)) (dyOfInt cooling))
  else if i ∈ fps then uint8i (hm.getD i 0 : ℤ)
  else uint8i ((hm.getD i 0 : ℤ) - cooling)

/-- State of the `Fire` animation relevant to its heat map: the heat map
(a ByteMap with `bpi = 1`), the blend map (`_blend_map` BitMap over logical
positions), the flash points, and the sparking / cooling / scroll_speed
settings.  The strip is taken without a repeat span, so `calc_n = n`. -/
structure FireState where
  heat_map : List ℕ
  blend_map : List Bool
  flash_points : List ℕ
  sparking : ℕ
  cooling : ℤ
  scroll_speed : ℤ

/-- Source `Fire.calc_frame` (animations.py lines 343-383) restricted to its
effect on the heat map (the trailing palette-lookup loop only writes pixel
colors): scroll the heat map when `scroll_speed != 0`, seed every flash point
with a fresh random heat, then rebuild the heat map with the cool-and-blend
pass.  `draws` lists the 8-bit random draw consumed for each flash point. -/
def fireCalcFrame (st : FireState) (draws : List ℕ) : FireState :=
  let hm0 := if st.scroll_speed ≠ 0 then byteMapScrollBuf st.heat_map 1 st.scroll_speed
    else st.heat_map
  let hm1 := seedFlashPoints st.sparking hm0 (st.flash_points.zip draws)
  let hm2 := (List.range hm1.length).map
    (fireCooledEntry hm1 st.blend_map st.flash_points st.cooling)
  { st with heat_map := hm2 }

/-- The blend-map construction of `Fire.setup` (animations.py lines 329-333):
starting from an all-zero map, for every flash point set the positions of the
window `[fp + bmin, fp + bmax)` that are in range and are not themselves
flash points. -/
def setupBlendMap (n : ℕ) (fps : List ℕ) (bmin bmax : ℤ) : List Bool :=
  fps.foldl (fun bm (fp : ℕ) =>
    (List.range (bmax - bmin).toNat).foldl (fun bm2 (k : ℕ) =>
      let i : ℤ := (fp : ℤ) + bmin + (k : ℕ)
      if 0 ≤ i ∧ i < (n : ℤ) ∧ ¬ i.toNat ∈ fps then bm2.set i.toNat true
      else bm2) bm)
    (List.replicate n false)

/-- Parameter names of `generators.striped_color_wheel` (generators.py line
28): `def striped_color_wheel(skip=0, stripe_size=10, brightness=10,
start_hue=0)`. -/
def stripedColorWheelParams : List String :=
  ["skip", "stripe_size", "brightness", "start_hue"]

/-- Keyword names that `NextGen.__init__` (animations.py line 216) passes
when no generator is supplied:
`generators.striped_color_wheel(hue_stride=10, stripe_size=1)`. -/
def nextGenDefaultKwargs : List String := ["hue_stride", "stripe_size"]

/-- Python keyword-binding semantics for a call that passes only keyword
arguments to a function without `**kwargs`: the call raises TypeError
(immediately, before a generator body runs) exactly when some keyword is not
a parameter name. -/
def kwCallOk (params kwargs : List String) : Bool :=
  kwargs.all fun kw => params.contains kw

/-- Source `NextGen.__init__` (animations.py lines 208-218) restricted to the
construction of the default generator: with `generator=None` it calls
`generators.striped_color_wheel(hue_stride=10, stripe_size=1)`; with an
explicit generator it stores it.  The payload is the keyword list actually
bound, standing in for the generator object. -/
def nextGenInitGenerator (generator : Option (List String)) :
    Except String (List String) :=
  match generator with
  | some g => Except.ok g
  | none =>
    if kwCallOk stripedColorWheelParams nextGenDefaultKwargs then
      Except.ok nextGenDefaultKwargs
    else Except.error "TypeError: unexpected keyword argument"

theorem bitLenAux_le : ∀ (fuel k n : ℕ), n < 2 ^ k → k ≤ fuel → bitLenAux fuel n ≤ k := by
  intro fuel
  induction fuel with
  | zero => intro k n _ _; simp [bitLenAux]
  | succ fuel ih =>
    intro k n hn hk
    by_cases h0 : n = 0
    · simp [bitLenAux, h0]
    · have hk1 : 1 ≤ k := by
        by_contra h
        have : k = 0 := by omega
        subst this
        simp at hn
        omega
      have hhalf : n / 2 < 2 ^ (k - 1) := by
        have h2 : 2 ^ k = 2 * 2 ^ (k - 1) := by
          have : k - 1 + 1 = k := by omega
          calc 2 ^ k = 2 ^ (k - 1 + 1) := by rw [this]
          _ = 2 * 2 ^ (k - 1) := by ring
        omega
      have := ih (k - 1) (n / 2) hhalf (by omega)
      simp only [bitLenAux, h0, if_false]
      omega

theorem bitLen_le_of_lt {n k : ℕ} (hn : n < 2 ^ k) (hk : k ≤ 4096) : bitLen n ≤ k :=
  bitLenAux_le 4096 k n hn hk

theorem roundM_zero (e : ℤ) : roundM 0 e = ⟨0, 0⟩ := by simp [roundM]

theorem roundM_small {m : ℤ} (e : ℤ) (h : m.natAbs < 2 ^ 53) (hm : m ≠ 0) :
    roundM m e = ⟨m, e⟩ := by
  have hb : bitLen m.natAbs ≤ 53 := bitLen_le_of_lt h (by norm_num)
  simp [roundM, hm, hb]

theorem dyOfInt_small {m : ℤ} (h : m.natAbs < 2 ^ 53) (hm : m ≠ 0) :
    dyOfInt m = ⟨m, 0⟩ := roundM_small 0 h hm

theorem flMul_zero_right (x : Dy) : flMul x ⟨0, 0⟩ = ⟨0, 0⟩ := by
  simp [flMul, roundM]

theorem uint8f_natCast (a : ℕ) (h : a ≤ 255) : uint8f ⟨(a : ℤ), 0⟩ = a := by
  have h1 : dyLe ⟨0, 0⟩ ⟨(a : ℤ), 0⟩ = true := by
    simp [dyLe]
  have h2 : dyLe ⟨(a : ℤ), 0⟩ ⟨255, 0⟩ = true := by
    simp [dyLe]
    exact_mod_cast h
  simp [uint8f, h1, h2, dyTrunc]

theorem uint8f_le (x : Dy) : uint8f x ≤ 255 := by
  unfold uint8f
  split_ifs with h1 h2
  · simp only [Bool.and_eq_true, dyLe, decide_eq_true_eq] at h1
    obtain ⟨ha, hb⟩ := h1
    simp only [dyTrunc]
    split_ifs with he
    · -- x.e ≥ 0: the value is the integer x.m * 2 ^ x.e itself
      have h0 : min (0 : ℤ) x.e = 0 := by omega
      have h0' : min x.e (0 : ℤ) = 0 := by omega
      rw [h0] at ha
      rw [h0'] at hb
      simp at ha hb
      have hb' : x.m * 2 ^ x.e.toNat ≤ 255 := by
        have : x.e - 0 = x.e := by ring
        simpa [this] using hb
      omega
    · push_neg at he
      have h0 : min (0 : ℤ) x.e = x.e := by omega
      have h0' : min x.e (0 : ℤ) = x.e := by omega
      rw [h0] at ha
      rw [h0'] at hb
      simp at ha hb
      -- ha : 0 ≤ x.m, hb : x.m ≤ 255 * 2 ^ (-x.e).toNat
      have hm0 : 0 ≤ x.m := by
        by_contra hneg
        push_neg at hneg
        nlinarith [pow_pos (by norm_num : (0:ℤ) < 2) (0 - x.e).toNat]
      have hb' : x.m ≤ 255 * 2 ^ (-x.e).toNat := by
        have he1 : (0 : ℤ) - x.e = -x.e := by ring
        have he2 : x.e - x.e = 0 := by ring
        omega
      have hNa : (x.m.natAbs : ℤ) ≤ 255 * (2 : ℤ) ^ (-x.e).toNat := by
        rw [Int.natAbs_of_nonneg hm0]
        exact hb'
      have hNn : x.m.natAbs ≤ 255 * 2 ^ (-x.e).toNat := by
        have hcast : (((2 : ℕ) ^ (-x.e).toNat : ℕ) : ℤ) = (2 : ℤ) ^ (-x.e).toNat := by
          push_cast
          ring
        omega
      have hdivN : x.m.natAbs / 2 ^ (-x.e).toNat < 256 := by
        have hp : 0 < 2 ^ (-x.e).toNat := Nat.pos_pow_of_pos _ (by norm_num)
        rw [Nat.div_lt_iff_lt_mul hp]
        omega
      have hsign : x.m.sign = 0 ∨ x.m.sign = 1 := by
        by_cases hz : x.m = 0
        · left; simp [hz]
        · right; exact Int.sign_eq_one_iff_pos.mpr (by omega)
      have hfin : x.m.sign * (x.m.natAbs / 2 ^ (-x.e).toNat : ℕ) ≤ 255 := by
        rcases hsign with hs | hs <;> rw [hs] <;> omega
      omega
  · omega
  · omega

theorem uint8i_le (v : ℤ) : uint8i v ≤ 255 := by
  unfold uint8i
  split_ifs <;> omega

theorem uint8i_natCast (a : ℕ) (h : a ≤ 255) : uint8i (a : ℤ) = a := by
  unfold uint8i
  rw [if_pos (by omega)]
  omega

theorem blendChan_zero (a b : ℕ) (ha : a ≤ 255) : blendChan a b 0 = a := by
  unfold blendChan
  have hz : dyOfInt 0 = ⟨0, 0⟩ := roundM_zero 0
  rw [hz, flMul_zero_right]
  by_cases h0 : a = 0
  · subst h0
    decide
  · have hda : dyOfInt (a : ℤ) = ⟨(a : ℤ), 0⟩ :=
      dyOfInt_small (by simp; omega) (by exact_mod_cast h0)
    rw [hda]
    have hadd : flAdd ⟨(a : ℤ), 0⟩ ⟨0, 0⟩ = ⟨(a : ℤ), 0⟩ := by
      simp only [flAdd]
      norm_num
      exact roundM_small 0 (by simp; omega) (by exact_mod_cast h0)
    rw [hadd]
    exact uint8f_natCast a ha

/-- Claim C7 (amended): `blend(c1,c2,0) == c1` for valid colors; `pct`
outside [0,100] returns `c1` unchanged; the documented examples
`blend((200,100,50),(50,200,100),50) == (125,150,75)` and
`blend((200,100,50),(50,200,100),100) == (50,200,100)` hold — but
`blend(c1,c2,100) == c2` is not universal (see the counterexample): binary64
truncation can lose one unit per channel. -/
theorem c7_blend_laws (c1 c2 : Color)
    (h1 : c1.1 ≤ 255 ∧ c1.2.1 ≤ 255 ∧ c1.2.2 ≤ 255) :
    blend c1 c2 0 = c1 ∧
    (∀ pct : ℤ, pct < 0 ∨ 100 < pct → blend c1 c2 pct = c1) ∧
    blend (200, 100, 50) (50, 200, 100) 50 = (125, 150, 75) ∧
    blend (200, 100, 50) (50, 200, 100) 100 = (50, 200, 100) := by
  refine ⟨?_, ?_, by decide, by decide⟩
  · obtain ⟨ha, hb, hc⟩ := h1
    simp only [blend, if_pos (by omega : (0:ℤ) ≤ 0 ∧ (0:ℤ) ≤ 100)]
    rw [blendChan_zero _ _ ha, blendChan_zero _ _ hb, blendChan_zero _ _ hc]
  · intro pct hp
    simp only [blend]
    rw [if_neg (by omega)]

/-- Witness for c7_blend_laws at the repository's own test colors. -/
theorem c7_blend_laws_witness :
    ((200, 100, 50) : Color).1 ≤ 255 ∧ ((200, 100, 50) : Color).2.1 ≤ 255 ∧
      ((200, 100, 50) : Color).2.2 ≤ 255 ∧
    blend (200, 100, 50) (50, 200, 100) 0 = (200, 100, 50) ∧
    blend (200, 100, 50) (50, 200, 100) 101 = (200, 100, 50) :=
  ⟨by decide, by decide, by decide,
    (c7_blend_laws (200, 100, 50) (50, 200, 100) (by decide)).1,
    (c7_blend_laws (200, 100, 50) (50, 200, 100) (by decide)).2.1 101 (by decide)⟩

/-- Claim C5 (amended): `color_wheel` first clamps the position with `uint8`
and only then reduces mod 255, so `color_wheel(pos, b) ==
color_wheel(pos mod 255, b)` holds for `0 ≤ pos ≤ 255` (every in-range
position) but not for general integers (see the counterexample); the three
boundary colors hold exactly. -/
theorem c5_color_wheel_clamped_mod :
    (∀ pos : ℤ, 0 ≤ pos → pos ≤ 255 → ∀ val : ℤ,
      color_wheel pos val = color_wheel (pos % 255) val) ∧
    color_wheel 0 255 = (255, 0, 0) ∧
    color_wheel 85 255 = (0, 255, 0) ∧
    color_wheel 170 255 = (0, 0, 255) := by
  refine ⟨?_, by decide, by decide, by decide⟩
  intro pos h0 h255 val
  unfold color_wheel
  have h : uint8i pos % 255 = uint8i (pos % 255) % 255 := by
    unfold uint8i
    split_ifs <;> omega
  rw [h]

/-- Witness for c5_color_wheel_clamped_mod at `pos = 255`, `val = 7`. -/
theorem c5_color_wheel_clamped_mod_witness :
    (0 : ℤ) ≤ 255 ∧ (255 : ℤ) ≤ 255 ∧
      color_wheel 255 7 = color_wheel ((255 : ℤ) % 255) 7 :=
  ⟨by decide, by decide, c5_color_wheel_clamped_mod.1 255 (by decide) (by decide) 7⟩

theorem blendToColorAux_length (color : Color) (pct : ℤ) :
    ∀ (buf : List Color) (lc bc : Color),
      (blendToColorAux color pct buf lc bc).length = buf.length := by
  intro buf
  induction buf with
  | nil => intro lc bc; rfl
  | cons v rest ih =>
    intro lc bc
    simp only [blendToColorAux]
    split_ifs <;> simp [ih]

theorem blendToColorAux_getD (color : Color) (pct : ℤ) :
    ∀ (buf : List Color) (s : Color × Color),
      (s.1 = s.2 ∨ s.2 = blend s.1 color pct) →
      ∀ i, i < buf.length →
        (blendToColorAux color pct buf s.1 s.2).getD i (0, 0, 0) =
          if buf.getD i (0, 0, 0) = (btcState color pct (buf.take i) s).2
          then buf.getD i (0, 0, 0)
          else blend (buf.getD i (0, 0, 0)) color pct := by
  intro buf
  induction buf with
  | nil =>
    intro s hs i hi
    simp at hi
  | cons v rest ih =>
    intro s hs i hi
    match i with
    | 0 =>
      by_cases h1 : v = s.2
      · simp [blendToColorAux, if_pos h1, btcState, h1]
      · by_cases h2 : v = s.1
        · rcases hs with heq | hbl
          · exact absurd (h2.trans heq) h1
          · simp only [blendToColorAux, if_neg h1, if_pos h2, List.getD_cons_zero,
              List.take_zero, btcState]
            rw [hbl, h2]
        · simp only [blendToColorAux, if_neg h1, if_neg h2, List.getD_cons_zero,
            List.take_zero, btcState]
    | j + 1 =>
      have hj : j < rest.length := by simpa using hi
      by_cases h1 : v = s.2
      · simp only [blendToColorAux, if_pos h1, List.getD_cons_succ, List.take_succ_cons]
        rw [ih s hs j hj]
        simp [btcState, h1]
      · by_cases h2 : v = s.1
        · simp only [blendToColorAux, if_neg h1, if_pos h2, List.getD_cons_succ,
            List.take_succ_cons]
          rw [ih s hs j hj]
          simp [btcState, h1, h2]
        · simp only [blendToColorAux, if_neg h1, if_neg h2, List.getD_cons_succ,
            List.take_succ_cons]
          rw [ih (v, blend v color pct) (Or.inr rfl) j hj]
          simp [btcState, h1, h2]

/-- Claim C3 (amended): `blend_to_color` is the naive walk except on pixels
that equal the running computed blend color (which starts at black): the
final value of pixel `i` is its original value when that pixel equals the
`blend_col` state reached after the first `i` pixels, and
`blend(original pixel i, color, pct)` otherwise.  In particular the
run-skipping shortcut does change final values (black pixels and pixels equal
to the previous blend result are left unblended), so it is not an
optimization-only transformation. -/
theorem c3_blend_to_color_characterization (buf : List Color) (color : Color)
    (pct : ℤ) (i : ℕ) (hi : i < buf.length) :
    (blend_to_color buf color pct).getD i (0, 0, 0) =
      if buf.getD i (0, 0, 0) = (btcState color pct (buf.take i) ((0, 0, 0), (0, 0, 0))).2
      then buf.getD i (0, 0, 0)
      else blend (buf.getD i (0, 0, 0)) color pct :=
  blendToColorAux_getD color pct buf ((0, 0, 0), (0, 0, 0)) (Or.inl rfl) i hi

/-- Witness for c3_blend_to_color_characterization on a two-pixel buffer. -/
theorem c3_blend_to_color_characterization_witness :
    1 < ([(0, 0, 0), (10, 10, 10)] : List Color).length ∧
    (blend_to_color [(0, 0, 0), (10, 10, 10)] (100, 100, 100) 50).getD 1 (0, 0, 0) =
      if ([(0, 0, 0), (10, 10, 10)] : List Color).getD 1 (0, 0, 0) =
          (btcState (100, 100, 100) 50 (([(0, 0, 0), (10, 10, 10)] : List Color).take 1)
            ((0, 0, 0), (0, 0, 0))).2
      then ([(0, 0, 0), (10, 10, 10)] : List Color).getD 1 (0, 0, 0)
      else blend (([(0, 0, 0), (10, 10, 10)] : List Color).getD 1 (0, 0, 0)) (100, 100, 100) 50 :=
  ⟨by decide,
    c3_blend_to_color_characterization [(0, 0, 0), (10, 10, 10)] (100, 100, 100) 50 1 (by decide)⟩

/-- Claim C1: for every ByteMap with `n ≥ 1` records and every integer index
`i`, `get(i)` returns the record at position `i mod n` — reads at `i ≥ n`
succeed.  The code contradicts this (and its own docstring, which promises
wraparound instead of index errors): on a 2-record map, reading index 2
raises IndexError, while the record at `2 mod 2 = 0` the claim expects does
exist and reads fine. -/
theorem c1_bytemap_read_at_n_raises :
    ByteMap.getItem ⟨2, 3, [1, 2, 3, 4, 5, 6]⟩ 2 = Except.error "index out of range" ∧
    ByteMap.getItem ⟨2, 3, [1, 2, 3, 4, 5, 6]⟩ ((2 : ℤ) % 2) = Except.ok [1, 2, 3] := by
  decide

/-- Claim C2: `scroll(k)` then `scroll(-k)` restores a BitMap buffer for
`1 ≤ k ≤ 32`, and `scroll(0)` is a no-op.  Both fail on a two-word buffer
(`n = 64`): the snapshot loop reads words at byte offsets `i..i+4` instead of
`4i..4i+4`, so `scroll(1)` then `scroll(-1)` corrupts the buffer (a spurious
bit 31 appears) and even `scroll(0)` rewrites word 1 from overlapping bytes.
(On a single-word buffer the overlap disappears and the round trip holds.) -/
theorem c2_bitmap_scroll_roundtrip_fails :
    (BitMap.scroll (BitMap.scroll ⟨64, 2, [255, 0, 0, 0, 0, 0, 0, 0]⟩ 1) (-1)).buf
        = [255, 0, 0, 128, 0, 0, 0, 0] ∧
    (BitMap.scroll (BitMap.scroll ⟨64, 2, [255, 0, 0, 0, 0, 0, 0, 0]⟩ 1) (-1)).buf
        ≠ [255, 0, 0, 0, 0, 0, 0, 0] ∧
    (BitMap.scroll ⟨64, 2, [0, 255, 0, 0, 0, 0, 0, 0]⟩ 0).buf
        ≠ [0, 255, 0, 0, 0, 0, 0, 0] ∧
    (BitMap.scroll (BitMap.scroll ⟨32, 1, [18, 52, 86, 120]⟩ 5) (-5)).buf
        = [18, 52, 86, 120] := by
  decide

/-- Claim C3 counterexample: `blend_to_color` is not observationally
equivalent to the naive per-pixel blend walk.  A single black pixel equals
the initial `blend_col = (0,0,0)`, is skipped, and stays black, while the
naive walk blends it to (50,50,50). -/
theorem c3_blend_to_color_skips_black :
    blend_to_color [(0, 0, 0)] (100, 100, 100) 50 = [(0, 0, 0)] ∧
    blendEach [(0, 0, 0)] (100, 100, 100) 50 = [(50, 50, 50)] ∧
    blend_to_color [(0, 0, 0)] (100, 100, 100) 50
      ≠ blendEach [(0, 0, 0)] (100, 100, 100) 50 := by
  decide

/-- Claim C4: `adjust(shift)` with `1 ≤ shift ≤ 7` is claimed to clamp each
shifted channel into [0,255] and never fail on a bright pixel.  The code uses
the unclamped `shift_bits`, so brightening the pixel (200,0,0) by one step
computes channel 400 and the bytearray store raises ValueError.  (The second
conjunct records the part of the claim the code does satisfy: shifts outside
[-7,7] fail.) -/
theorem c4_adjust_overflows_on_bright_pixel :
    adjust [(200, 0, 0)] 1 = Except.error "value must fit in a byte" ∧
    adjust [(200, 0, 0)] 8 = Except.error "shift must be between -7 and 7" := by
  decide

/-- Claim C5 counterexample: `color_wheel` does not normalise its position
mod 255 — it clamps with `uint8` first — so `color_wheel(300, 255)` lands on
hue 0 (pure red) instead of hue `300 mod 255 = 45`. -/
theorem c5_color_wheel_not_mod_255 :
    color_wheel 300 255 = (255, 0, 0) ∧
    color_wheel ((300 : ℤ) % 255) 255 = (120, 135, 0) ∧
    color_wheel 300 255 ≠ color_wheel ((300 : ℤ) % 255) 255 := by
  decide

/-- Claim C6: mirror repeat mode is claimed to tile the strip with the head
forward, backward, forward, alternating.  The cursor update never leaves
`rl = 0` once it reaches it (the `0 < rl` guard excludes 0 and the `rl == 0`
branch only sets the direction), so after one reversed segment every further
pixel is a copy of head[0]: with head `(1,1,1), (2,2,2)` on a 6-pixel strip
the last pixel is `(1,1,1)` where the claimed ping-pong tiling puts
`(2,2,2)`. -/
theorem c6_repeat_mirror_degenerates :
    repeatMirror [(1, 1, 1), (2, 2, 2), (0, 0, 0), (0, 0, 0), (0, 0, 0), (0, 0, 0)] 2
        = [(1, 1, 1), (2, 2, 2), (2, 2, 2), (1, 1, 1), (1, 1, 1), (1, 1, 1)] ∧
    mirrorTiling [(1, 1, 1), (2, 2, 2), (0, 0, 0), (0, 0, 0), (0, 0, 0), (0, 0, 0)] 2
        = [(1, 1, 1), (2, 2, 2), (2, 2, 2), (1, 1, 1), (1, 1, 1), (2, 2, 2)] ∧
    repeatMirror [(1, 1, 1), (2, 2, 2), (0, 0, 0), (0, 0, 0), (0, 0, 0), (0, 0, 0)] 2
        ≠ mirrorTiling [(1, 1, 1), (2, 2, 2), (0, 0, 0), (0, 0, 0), (0, 0, 0), (0, 0, 0)] 2 := by
  decide

/-- Claim C7 counterexample: `blend(c1, c2, 100) == c2` fails for some
colors: the float expression `0 + (29 - 0) / 100 * 100` evaluates to
`28.999999999999996` in binary64 and `uint8` truncates it to 28. -/
theorem c7_blend_pct100_not_col2 :
    blend (0, 0, 0) (29, 29, 29) 100 = (28, 28, 28) ∧
    blend (0, 0, 0) (29, 29, 29) 100 ≠ (29, 29, 29) := by
  decide

/-- Claim C8: for every ByteMap of length `n` and every value of matching
width (with byte-range entries), `set` succeeds exactly for indices
`0 ≤ i ≤ n`; writing at index `n` appends one record, growing the length to
`n + 1`, and that record then reads back unchanged; writing at any other
out-of-range index fails with an index error (and, the embedding being
functional, returns no modified vector). -/
theorem c8_bytemap_set_append (bm : ByteMap) (value : List ℕ)
    (hwf : bm.buf.length = bm.n * bm.bpi)
    (hb : 1 ≤ bm.bpi)
    (hv : value.length = bm.bpi)
    (hvb : ∀ x ∈ value, x < 256) :
    (∀ key : ℤ, (∃ bm2, ByteMap.setItem bm key value = Except.ok bm2) ↔
      0 ≤ key ∧ key ≤ (bm.n : ℤ)) ∧
    ∃ bm2, ByteMap.setItem bm (bm.n : ℤ) value = Except.ok bm2 ∧
      bm2.n = bm.n + 1 ∧ ByteMap.getItem bm2 (bm.n : ℤ) = Except.ok value := by
  have hvne : value ≠ [] := by
    intro h
    rw [h] at hv
    simp at hv
    omega
  have hcv : colval value bm.bpi = value := by
    unfold colval
    rw [if_neg hvne]
  have hok : ∀ b ∈ colval value bm.bpi, b < 256 := by
    rw [hcv]
    exact hvb
  constructor
  · intro key
    constructor
    · rintro ⟨bm2, h⟩
      simp only [ByteMap.setItem] at h
      rw [if_neg (not_not_intro hok)] at h
      by_cases h1 : 0 ≤ key ∧ key < (bm.n : ℤ)
      · omega
      · rw [if_neg h1] at h
        by_cases h2 : key = (bm.n : ℤ)
        · omega
        · rw [if_neg h2] at h
          simp at h
    · rintro ⟨hk0, hkn⟩
      by_cases hlt : key < (bm.n : ℤ)
      · refine ⟨⟨bm.n, bm.bpi, bm.buf.take (key.toNat * bm.bpi) ++ colval value bm.bpi
          ++ bm.buf.drop (key.toNat * bm.bpi + bm.bpi)⟩, ?_⟩
        simp only [ByteMap.setItem]
        rw [if_neg (not_not_intro hok), if_pos ⟨hk0, hlt⟩]
      · have hkey : key = (bm.n : ℤ) := by omega
        refine ⟨⟨bm.n + 1, bm.bpi, bm.buf ++ colval value bm.bpi⟩, ?_⟩
        simp only [ByteMap.setItem]
        rw [if_neg (not_not_intro hok), if_neg (by omega), if_pos hkey]
  · refine ⟨⟨bm.n + 1, bm.bpi, bm.buf ++ colval value bm.bpi⟩, ?_, rfl, ?_⟩
    · simp only [ByteMap.setItem]
      rw [if_neg (not_not_intro hok), if_neg (by omega)]
      simp
    · simp only [ByteMap.getItem]
      rw [if_pos ⟨by positivity, by exact_mod_cast Nat.lt_succ_self bm.n⟩]
      rw [hcv]
      have hto : ((bm.n : ℤ)).toNat = bm.n := Int.toNat_natCast bm.n
      rw [hto, ← hwf, List.drop_left, ← hv, List.take_length]

/-- Witness for c8_bytemap_set_append on a concrete two-record map. -/
theorem c8_bytemap_set_append_witness :
    (([1, 2, 3, 4, 5, 6] : List ℕ).length = 2 * 3 ∧ 1 ≤ 3 ∧
      ([7, 8, 9] : List ℕ).length = 3 ∧ ∀ x ∈ ([7, 8, 9] : List ℕ), x < 256) ∧
    ((∀ key : ℤ, (∃ bm2, ByteMap.setItem ⟨2, 3, [1, 2, 3, 4, 5, 6]⟩ key [7, 8, 9]
          = Except.ok bm2) ↔ 0 ≤ key ∧ key ≤ ((2 : ℕ) : ℤ)) ∧
      ∃ bm2, ByteMap.setItem ⟨2, 3, [1, 2, 3, 4, 5, 6]⟩ ((2 : ℕ) : ℤ) [7, 8, 9]
          = Except.ok bm2 ∧ bm2.n = 2 + 1 ∧
        ByteMap.getItem bm2 ((2 : ℕ) : ℤ) = Except.ok [7, 8, 9]) :=
  ⟨⟨by decide, by decide, by decide, by decide⟩,
    c8_bytemap_set_append ⟨2, 3, [1, 2, 3, 4, 5, 6]⟩ [7, 8, 9]
      (by decide) (by decide) (by decide) (by decide)⟩

theorem getD_set_ne' (l : List α) (i j : ℕ) (a d : α) (h : i ≠ j) :
    (l.set i a).getD j d = l.getD j d := by
  rw [List.getD_eq_getElem?_getD, List.getD_eq_getElem?_getD, List.getElem?_set_ne h]

theorem getD_set_self' (l : List α) (i : ℕ) (a d : α) (h : i < l.length) :
    (l.set i a).getD i d = a := by
  rw [List.getD_eq_getElem?_getD, List.getElem?_set_eq_of_lt a h]
  rfl

theorem sparkVal_le (s v : ℕ) : sparkVal s v ≤ 255 := by
  unfold sparkVal
  split_ifs with h
  · have : v &&& 31 ≤ 31 := Nat.and_le_right
    omega
  · have h1 : v &&& 127 < 2 ^ 7 := Nat.lt_of_le_of_lt Nat.and_le_right (by norm_num)
    have h2 : (v &&& 127) ||| 64 < 2 ^ 7 := Nat.or_lt_two_pow h1 (by norm_num)
    omega

theorem fireCooledEntry_le (hm : List ℕ) (bmap : List Bool) (fps : List ℕ)
    (cooling : ℤ) (i : ℕ) : fireCooledEntry hm bmap fps cooling i ≤ 255 := by
  unfold fireCooledEntry
  split_ifs <;> first
    | exact uint8f_le _
    | exact uint8i_le _

theorem byteMapScrollBuf_length (buf : List ℕ) (bpi : ℕ) (step : ℤ) :
    (byteMapScrollBuf buf bpi step).length = buf.length := by
  unfold byteMapScrollBuf pySliceFrom pySliceTo
  split_ifs
  all_goals simp
  all_goals omega

theorem seedFlashPoints_length (s : ℕ) :
    ∀ (ps : List (ℕ × ℕ)) (hm : List ℕ), (seedFlashPoints s hm ps).length = hm.length := by
  intro ps
  induction ps with
  | nil => intro hm; rfl
  | cons q rest ih =>
    intro hm
    simp only [seedFlashPoints]
    rw [ih]
    exact List.length_set hm q.1 _

theorem seedFlashPoints_getD_not_mem (s : ℕ) :
    ∀ (ps : List (ℕ × ℕ)) (hm : List ℕ) (ip : ℕ), ip ∉ ps.map Prod.fst →
      (seedFlashPoints s hm ps).getD ip 0 = hm.getD ip 0 := by
  intro ps
  induction ps with
  | nil => intro hm ip _; rfl
  | cons q rest ih =>
    intro hm ip hip
    simp only [List.map_cons, List.mem_cons] at hip
    push_neg at hip
    simp only [seedFlashPoints]
    rw [ih _ _ hip.2, getD_set_ne' _ _ _ _ _ (fun h => hip.1 h.symm)]

theorem seedFlashPoints_getD_mem (s : ℕ) :
    ∀ (ps : List (ℕ × ℕ)) (hm : List ℕ), (ps.map Prod.fst).Nodup →
      (∀ q ∈ ps, q.1 < hm.length) → ∀ p ∈ ps,
        (seedFlashPoints s hm ps).getD p.1 0 = sparkVal s p.2 := by
  intro ps
  induction ps with
  | nil => intro hm _ _ p hp; simp at hp
  | cons q rest ih =>
    intro hm hnd hlt p hp
    simp only [List.map_cons, List.nodup_cons] at hnd
    rcases List.mem_cons.mp hp with rfl | hmem
    · simp only [seedFlashPoints]
      rw [seedFlashPoints_getD_not_mem s rest _ _ hnd.1]
      exact getD_set_self' _ _ _ _ (hlt p (List.mem_cons_self p rest))
    · simp only [seedFlashPoints]
      refine ih _ hnd.2 ?_ p hmem
      intro q2 hq2
      rw [List.length_set]
      exact hlt q2 (List.mem_cons_of_mem q hq2)

theorem setupBlendMapInner_no_fps (n' : ℕ) (fps' : List ℕ) (bmin : ℤ) (fp0 : ℕ) :
    ∀ (ks : List ℕ) (bm : List Bool) (fp : ℕ), fp ∈ fps' → bm.getD fp false = false →
      (ks.foldl (fun bm2 (k : ℕ) =>
        let i : ℤ := (fp0 : ℤ) + bmin + (k : ℕ)
        if 0 ≤ i ∧ i < (n' : ℤ) ∧ ¬ i.toNat ∈ fps' then bm2.set i.toNat true
        else bm2) bm).getD fp false = false := by
  intro ks
  induction ks with
  | nil => intro bm fp _ h; exact h
  | cons k rest ih =>
    intro bm fp hfp h
    simp only [List.foldl_cons]
    refine ih _ fp hfp ?_
    by_cases hc : 0 ≤ (fp0 : ℤ) + bmin + (k : ℕ) ∧ (fp0 : ℤ) + bmin + (k : ℕ) < (n' : ℤ) ∧
        ¬ ((fp0 : ℤ) + bmin + (k : ℕ)).toNat ∈ fps'
    · rw [if_pos hc, getD_set_ne' _ _ _ _ _ (fun he => hc.2.2 (by rw [he]; exact hfp))]
      exact h
    · rw [if_neg hc]
      exact h

theorem setupBlendMapOuter_no_fps (n' : ℕ) (fps' : List ℕ) (bmin bmax : ℤ) :
    ∀ (gps : List ℕ) (bm : List Bool) (fp : ℕ), fp ∈ fps' → bm.getD fp false = false →
      (gps.foldl (fun bm (fp0 : ℕ) =>
        (List.range (bmax - bmin).toNat).foldl (fun bm2 (k : ℕ) =>
          let i : ℤ := (fp0 : ℤ) + bmin + (k : ℕ)
          if 0 ≤ i ∧ i < (n' : ℤ) ∧ ¬ i.toNat ∈ fps' then bm2.set i.toNat true
          else bm2) bm) bm).getD fp false = false := by
  intro gps
  induction gps with
  | nil => intro bm fp _ h; exact h
  | cons g rest ih =>
    intro bm fp hfp h
    simp only [List.foldl_cons]
    exact ih _ fp hfp (setupBlendMapInner_no_fps n' fps' bmin g _ bm fp hfp h)

theorem setupBlendMap_no_fps (n' : ℕ) (fps' : List ℕ) (bmin bmax : ℤ) :
    ∀ fp ∈ fps', (setupBlendMap n' fps' bmin bmax).getD fp false = false := by
  intro fp hfp
  have hinit : (List.replicate n' false).getD fp false = false := by
    rw [List.getD_eq_getElem?_getD, List.getElem?_replicate]
    split_ifs <;> rfl
  exact setupBlendMapOuter_no_fps n' fps' bmin bmax fps' _ fp hfp hinit

/-- Claim C9: after a `Fire.calc_frame` step from any state (any random
draws, any sparking/cooling/scroll settings), every entry of the heat map is
within [0, 255] (entries are naturals, so the content is the upper bound —
every entry passes through `uint8`); and every flash point is assigned
exactly its fresh seeded heat value `sparkVal` — the cool-and-blend pass
leaves it alone because `Fire.setup` never flags a flash point in the blend
map, which the third conjunct proves of the blend-map construction itself.
The hypotheses state the shape `Fire.setup` guarantees: distinct in-range
flash points, one 8-bit draw per flash point, and a blend map that is clear
at the flash points. -/
theorem c9_fire_heat_invariant (st : FireState) (draws : List ℕ)
    (hnodup : st.flash_points.Nodup)
    (hlen : draws.length = st.flash_points.length)
    (hfp : ∀ fp ∈ st.flash_points, fp < st.heat_map.length)
    (hbm : ∀ fp ∈ st.flash_points, st.blend_map.getD fp false = false) :
    (∀ x ∈ (fireCalcFrame st draws).heat_map, x ≤ 255) ∧
    (∀ p ∈ st.flash_points.zip draws,
      (fireCalcFrame st draws).heat_map.getD p.1 0 = sparkVal st.sparking p.2) ∧
    (∀ (n' : ℕ) (fps' : List ℕ) (bmin bmax : ℤ), ∀ fp ∈ fps',
      (setupBlendMap n' fps' bmin bmax).getD fp false = false) := by
  refine ⟨?_, ?_, fun n' fps' bmin bmax => setupBlendMap_no_fps n' fps' bmin bmax⟩
  · intro x hx
    simp only [fireCalcFrame] at hx
    rw [List.mem_map] at hx
    obtain ⟨i, _, rfl⟩ := hx
    exact fireCooledEntry_le _ _ _ _ _
  · intro p hp
    have hp1 : p.1 ∈ st.flash_points := (List.of_mem_zip hp).1
    have hlen0 : (if st.scroll_speed ≠ 0 then byteMapScrollBuf st.heat_map 1 st.scroll_speed
        else st.heat_map).length = st.heat_map.length := by
      split_ifs with h
      · exact byteMapScrollBuf_length _ _ _
      · rfl
    have hzipnd : ((st.flash_points.zip draws).map Prod.fst).Nodup := by
      rw [List.map_fst_zip _ _ (by omega)]
      exact hnodup
    have hall : ∀ q ∈ st.flash_points.zip draws,
        q.1 < (if st.scroll_speed ≠ 0 then byteMapScrollBuf st.heat_map 1 st.scroll_speed
          else st.heat_map).length := by
      intro q hq
      rw [hlen0]
      exact hfp _ (List.of_mem_zip hq).1
    have hseed : (seedFlashPoints st.sparking
        (if st.scroll_speed ≠ 0 then byteMapScrollBuf st.heat_map 1 st.scroll_speed
          else st.heat_map) (st.flash_points.zip draws)).getD p.1 0
        = sparkVal st.sparking p.2 :=
      seedFlashPoints_getD_mem st.sparking _ _ hzipnd hall p hp
    have hplen : p.1 < (seedFlashPoints st.sparking
        (if st.scroll_speed ≠ 0 then byteMapScrollBuf st.heat_map 1 st.scroll_speed
          else st.heat_map) (st.flash_points.zip draws)).length := by
      rw [seedFlashPoints_length, hlen0]
      exact hfp _ hp1
    simp only [fireCalcFrame]
    rw [List.getD_eq_getElem?_getD]
    simp only [List.getElem?_map, List.getElem?_range, hplen, if_pos]
    simp only [Option.map_some', Option.getD_some]
    unfold fireCooledEntry
    rw [hbm p.1 hp1]
    simp only [Bool.false_eq_true, if_false]
    rw [if_pos hp1, hseed]
    exact uint8i_natCast _ (sparkVal_le _ _)

/-- Witness for c9_fire_heat_invariant on a concrete four-pixel fire state. -/
theorem c9_fire_heat_invariant_witness :
    (([0, 2] : List ℕ).Nodup ∧ ([100, 40] : List ℕ).length = ([0, 2] : List ℕ).length ∧
      (∀ fp ∈ ([0, 2] : List ℕ), fp < ([10, 20, 30, 40] : List ℕ).length) ∧
      (∀ fp ∈ ([0, 2] : List ℕ),
        ([false, true, false, true] : List Bool).getD fp false = false)) ∧
    (∀ x ∈ (fireCalcFrame ⟨[10, 20, 30, 40], [false, true, false, true], [0, 2], 64, 5, 1⟩
        [100, 40]).heat_map, x ≤ 255) ∧
    (∀ p ∈ ([0, 2] : List ℕ).zip [100, 40],
      (fireCalcFrame ⟨[10, 20, 30, 40], [false, true, false, true], [0, 2], 64, 5, 1⟩
        [100, 40]).heat_map.getD p.1 0 = sparkVal 64 p.2) :=
  ⟨⟨by decide, by decide, by decide, by decide⟩,
    (c9_fire_heat_invariant ⟨[10, 20, 30, 40], [false, true, false, true], [0, 2], 64, 5, 1⟩
      [100, 40] (by decide) (by decide) (by decide) (by decide)).1,
    (c9_fire_heat_invariant ⟨[10, 20, 30, 40], [false, true, false, true], [0, 2], 64, 5, 1⟩
      [100, 40] (by decide) (by decide) (by decide) (by decide)).2.1⟩

/-- Claim C10: constructing NextGen without a generator always fails
immediately with an argument error: the default generator is requested with
keyword `hue_stride`, which `striped_color_wheel` (parameters `skip`,
`stripe_size`, `brightness`, `start_hue`) does not accept, so the call raises
TypeError at binding time and the documented default color source is
unusable. -/
theorem c10_nextgen_default_generator_fails :
    nextGenInitGenerator none = Except.error "TypeError: unexpected keyword argument" := by
  decide

end TrickLED
